import Mathlib

/-!
Verification of the selection/range editing engine of the Raptor repository
(`src/tools/selection.js`) against its natural-language specification.

The development shallowly embeds the relevant functions of the source file.
Pure computations are translated directly; the mutable document tree, ranges
and selections of the browser environment are embedded as explicit values:

* `DomNode` is the document tree (text leaves and elements with a tag,
  attributes and ordered children).  Node identity is tracked by a numeric
  `id` field; nodes freshly produced by cloning or by serialising and
  re-parsing markup carry the id `0`.
* Positions in a tree are paths (`List Nat` of child indices from the root).
* External collaborators (jQuery, rangy, and helper files of the repository
  that are not part of `src/`, such as `element.js` and `range.js`) are
  modelled from the specification; each such definition carries a doc
  comment starting with `Modelled from the spec:`.
-/

/-- The document tree: a text leaf with a node id and character content, or
an element with a node id, tag name, attribute list and ordered children.
The id models DOM node identity; clones and re-parsed nodes get id `0`. -/
inductive DomNode where
  | text (id : Nat) (content : List Char)
  | elem (id : Nat) (tag : String) (attrs : List (String × String)) (children : List DomNode)
deriving Repr

mutual

/-- Decidable equality of document nodes. -/
def domNodeDecEq : (a b : DomNode) → Decidable (a = b)
  | .text i s, .text j t =>
      if h : i = j ∧ s = t then isTrue (by rw [h.1, h.2])
      else isFalse (by intro he; cases he; exact h ⟨rfl, rfl⟩)
  | .text _ _, .elem _ _ _ _ => isFalse (by intro h; cases h)
  | .elem _ _ _ _, .text _ _ => isFalse (by intro h; cases h)
  | .elem i t a cs, .elem j u b ds =>
      match domNodeListDecEq cs ds with
      | isTrue hcs =>
          if h : i = j ∧ t = u ∧ a = b then isTrue (by rw [h.1, h.2.1, h.2.2, hcs])
          else isFalse (by intro he; injection he with h1 h2 h3 _; exact h ⟨h1, h2, h3⟩)
      | isFalse hcs => isFalse (by intro he; injection he with _ _ _ h4; exact hcs h4)

/-- Decidable equality of node lists. -/
def domNodeListDecEq : (as bs : List DomNode) → Decidable (as = bs)
  | [], [] => isTrue rfl
  | [], _ :: _ => isFalse (by intro h; cases h)
  | _ :: _, [] => isFalse (by intro h; cases h)
  | a :: as, b :: bs =>
      match domNodeDecEq a b, domNodeListDecEq as bs with
      | isTrue h1, isTrue h2 => isTrue (by rw [h1, h2])
      | isFalse h1, _ => isFalse (by intro he; injection he with x _; exact h1 x)
      | _, isFalse h2 => isFalse (by intro he; injection he with _ y; exact h2 y)

end

instance : DecidableEq DomNode := domNodeDecEq

namespace DomNode

/-- `true` on element nodes (`nodeType !== 3`). -/
def isElem : DomNode → Bool
  | text _ _ => false
  | elem _ _ _ _ => true

/-- The node id. -/
def idOf : DomNode → Nat
  | text i _ => i
  | elem i _ _ _ => i

/-- The tag name of an element node; `""` for text nodes. -/
def tagOf : DomNode → String
  | text _ _ => ""
  | elem _ t _ _ => t

/-- The ordered children of an element node; `[]` for text nodes. -/
def childrenOf : DomNode → List DomNode
  | text _ _ => []
  | elem _ _ _ children => children

/-- Replace the children of an element node. -/
def withChildren : DomNode → List DomNode → DomNode
  | text i s, _ => text i s
  | elem i t a _, children => elem i t a children

end DomNode

/-- Node lookup along a path of child indices (`[]` is the root itself). -/
def getNode : DomNode → List Nat → Option DomNode
  | n, [] => some n
  | DomNode.text _ _, _ :: _ => none
  | DomNode.elem _ _ _ children, i :: rest =>
      match children[i]? with
      | none => none
      | some c => getNode c rest

/-- Rewrite the node at a path with `f`, leaving the rest of the tree alone. -/
def modifyAt : DomNode → List Nat → (DomNode → DomNode) → DomNode
  | n, [], f => f n
  | DomNode.text i s, _ :: _, _ => DomNode.text i s
  | DomNode.elem i t a children, k :: rest, f =>
      DomNode.elem i t a (children.mapIdx (fun j c => if j = k then modifyAt c rest f else c))

mutual

/-- All node ids occurring in a subtree. -/
def idsOf : DomNode → List Nat
  | DomNode.text i _ => [i]
  | DomNode.elem i _ _ children => i :: idsOfList children

/-- All node ids occurring in a forest. -/
def idsOfList : List DomNode → List Nat
  | [] => []
  | c :: cs => idsOf c ++ idsOfList cs

end

mutual

/-- All nodes of a subtree (the node itself and every descendant). -/
def nodesOf : DomNode → List DomNode
  | DomNode.text i s => [DomNode.text i s]
  | DomNode.elem i t a children => DomNode.elem i t a children :: nodesOfList children

/-- All nodes of a forest. -/
def nodesOfList : List DomNode → List DomNode
  | [] => []
  | c :: cs => nodesOf c ++ nodesOfList cs

end

mutual

/-- A copy of a subtree in which every node id is `0`: the shape of the fresh
nodes produced when markup is serialised and re-parsed (jQuery turning an
HTML string back into DOM nodes yields new node objects). -/
def zeroIds : DomNode → DomNode
  | DomNode.text _ s => DomNode.text 0 s
  | DomNode.elem _ t a children => DomNode.elem 0 t a (zeroIdsList children)

/-- `zeroIds` over a forest. -/
def zeroIdsList : List DomNode → List DomNode
  | [] => []
  | c :: cs => zeroIds c :: zeroIdsList cs

end

mutual

/-- The concatenated character data of a subtree (jQuery `.text()`), i.e. the
content with all markup stripped. -/
def textOf : DomNode → List Char
  | DomNode.text _ s => s
  | DomNode.elem _ _ _ children => textOfList children

/-- `textOf` over a forest. -/
def textOfList : List DomNode → List Char
  | [] => []
  | c :: cs => textOf c ++ textOfList cs

end

mutual

/-- Markup serialisation of a subtree.  Tags and attributes are rendered in a
fixed simple form; character escaping is not modelled because the code under
verification only ever compares serialised fragments against the empty
string. -/
def htmlOf : DomNode → List Char
  | DomNode.text _ s => s
  | DomNode.elem _ t a children =>
      '<' :: t.data ++ (a.map (fun p => (' ' :: p.1.data) ++ ('=' :: p.2.data))).flatten
        ++ ('>' :: htmlOfList children) ++ ('<' :: '/' :: t.data) ++ ['>']

/-- `htmlOf` over a forest (serialisation of a document fragment). -/
def htmlOfList : List DomNode → List Char
  | [] => []
  | c :: cs => htmlOf c ++ htmlOfList cs

end

/-!
## Selection iteration (`selectionEachRange`, lines 53-60)

```js
function selectionEachRange(callback, selection, context) {
    selection = selection || rangy.getSelection();
    var range, i = 0;
    // Create a new range set every time to update range offsets
    while (range = selection.getAllRanges()[i++]) {
        callback.call(context, range);
    }
}
```

The selection is a mutable object whose current range set is produced by
`getAllRanges`; the callback may mutate it (and the tree) arbitrarily.  The
embedding abstracts the selection state as a type `σ` together with a
function `gar : σ → List ρ` giving the current range set, and a callback
`ρ → σ → σ`.  The loop is given explicit fuel because a callback could grow
the range set without bound; with sufficient fuel the model and the loop
coincide.
-/

/-- The loop body of `selectionEachRange`: at loop counter `i` the current
range set is re-fetched from the current state, the range at index `i` is
passed to the callback, and the loop continues with the mutated state.  The
returned list is the trace of ranges passed to the callback. -/
def selectionEachRangeAux {σ ρ : Type} (gar : σ → List ρ) (cb : ρ → σ → σ) :
    Nat → Nat → σ → σ × List ρ
  | 0, _, s => (s, [])
  | fuel + 1, i, s =>
      match (gar s)[i]? with
      | none => (s, [])
      | some r =>
          let rest := selectionEachRangeAux gar cb fuel (i + 1) (cb r s)
          (rest.1, r :: rest.2)

/-- `selectionEachRange` (lines 53-60): iterate the callback over the ranges
of the selection, re-fetching the range set from the selection state on every
iteration. -/
def selectionEachRange {σ ρ : Type} (gar : σ → List ρ) (cb : ρ → σ → σ)
    (fuel : Nat) (s : σ) : σ × List ρ :=
  selectionEachRangeAux gar cb fuel 0 s

/-- The state reached after feeding a list of ranges through the callback in
order (the fold the iteration performs on the selection state). -/
def selectionStatesFold {σ ρ : Type} (cb : ρ → σ → σ) (s : σ) (rs : List ρ) : σ :=
  rs.foldl (fun t r => cb r t) s

/-- Concrete two-range scenario for the stale-boundary property: the document
holds nodes (by id) and the selection references nodes; the range set is
re-resolved against the current document on every fetch. -/
structure C1State where
  nodes : List Nat
  rangeNodes : List Nat
deriving DecidableEq, Repr

/-- Modelled from the spec: the selection's range set is re-resolved against
the current tree whenever it is fetched — a range whose boundary node has
been removed from the tree is dropped rather than handed out stale
("iteration with automatic re-resolution of ranges after each callback"). -/
def c1GetAllRanges (s : C1State) : List Nat :=
  s.rangeNodes.filter (fun n => s.nodes.contains n)

/-- The first callback of the scenario: processing the range over node `1`
removes node `2` — the node the second range's boundary refers to — from the
tree. -/
def c1Callback (r : Nat) (s : C1State) : C1State :=
  if r = 1 then { s with nodes := s.nodes.filter (fun n => n ≠ 2) } else s

/-- The initial scenario state: two nodes, and one range on each. -/
def c1Init : C1State := ⟨[1, 2], [1, 2]⟩

/-!
## `selectionReplace` (lines 74-80)

```js
function selectionReplace(html, selection) {
    var result = [];
    selectionEachRange(function(range) {
        result.concat(rangeReplace(html, range));
    }, selection, this);
    return result;
}
```

`rangeReplace` lives in `range.js` (not part of `src/`); it is abstracted as
a state transformer returning the per-range replacement result.  The JS
`result` variable is threaded through the iteration state so that the
`Array.prototype.concat` call is embedded exactly as written.
-/

/-- JavaScript `result.concat(extra)` as used on line 77: `concat` returns a
fresh array and does not mutate `result`; the returned array is discarded by
the source, so the accumulator is unchanged. -/
def jsConcatDiscarded {α : Type} (result : List α) (_extra : List α) : List α := result

/-- `selectionReplace` (lines 74-80): iterate `rangeReplace` over all ranges
via `selectionEachRange`, accumulating into `result` only through the
discarded `concat`, and return `result`. -/
def selectionReplace {σ ρ α : Type} (rangeReplace : ρ → σ → σ × List α)
    (gar : σ → List ρ) (fuel : Nat) (s : σ) : σ × List α :=
  let step : ρ → σ × List α → σ × List α := fun r t =>
    let rr := rangeReplace r t.1
    (rr.1, jsConcatDiscarded t.2 rr.2)
  let out := selectionEachRangeAux (fun t => gar t.1) step fuel 0 (s, [])
  (out.1.1, out.1.2)

/-- Concrete state for exercising `selectionReplace`: a static list of ranges
(by id) and a log of the ranges that `rangeReplace` has been applied to. -/
structure C9State where
  ranges : List Nat
  log : List Nat
deriving DecidableEq, Repr

/-- Modelled from the spec: `Range.replace` replaces one range's content and
yields that range's replacement result.  Here it logs the processed range and
returns it as the per-range result. -/
def c9RangeReplace (r : Nat) (s : C9State) : C9State × List Nat :=
  ({ s with log := s.log ++ [r] }, [r])

/-- The range set of the concrete `selectionReplace` state. -/
def c9Gar (s : C9State) : List Nat := s.ranges

/-- Initial state: a selection with two ranges `10` and `20`, nothing
replaced yet. -/
def c9Init : C9State := ⟨[10, 20], []⟩

/-!
## `selectionToggleBlockClasses` (lines 454-494)

```js
var apply = false, blocks = new jQuery();
selectionEachBlock(function(block) {
    blocks.push(block);
    if (!apply) {
        for (var i = 0, l = addClasses.length; i < l; i++) {
            if (!$(block).hasClass(addClasses[i])) { apply = true; }
        }
    }
}, limitElement, blockContainer);
$(blocks).removeClass(removeClasses.join(' '));
if (apply) { $(blocks).addClass(addClasses.join(' ')); }
else { $(blocks).removeClass(addClasses.join(' ')); }
```

A block is represented by its class list; the input of the embedding is the
list of blocks resolved by `selectionEachBlock` for the selection (that
resolution is embedded separately as `selectionEachBlock`).  The strict-mode
argument checks of the source are enforced by the types of the embedding.
jQuery `addClass` adds exactly the classes not already present and
`removeClass` removes every occurrence of the named classes.
-/

/-- jQuery `removeClass`: strip every class of `cs` from the class list. -/
def jqRemoveClass (b : List String) (cs : List String) : List String :=
  b.filter (fun c => decide (c ∉ cs))

/-- jQuery `addClass`: append the classes of `cs` that are not yet present. -/
def jqAddClass (b : List String) (cs : List String) : List String :=
  b ++ cs.filter (fun c => decide (c ∉ b))

/-- `selectionToggleBlockClasses` (lines 454-494) on the blocks resolved from
the selection: the `apply` flag is set during collection as soon as one block
misses one of `addClasses`; then `removeClasses` are stripped from every
block unconditionally and `addClasses` are applied to all blocks or removed
from all blocks according to the flag. -/
def selectionToggleBlockClasses (addClasses removeClasses : List String)
    (blocks : List (List String)) : List (List String) :=
  let apply := blocks.any (fun b => addClasses.any (fun c => decide (c ∉ b)))
  let stripped := blocks.map (fun b => jqRemoveClass b removeClasses)
  if apply then stripped.map (fun b => jqAddClass b addClasses)
  else stripped.map (fun b => jqRemoveClass b addClasses)

/-!
## Caret-at-edge queries (lines 217-244)

```js
function selectionAtEndOfElement() {
    var selection = rangy.getSelection();
    var focusNode = selection.isBackwards() ? selection.anchorNode : selection.focusNode;
    var focusOffset = selection.isBackwards() ? selection.focusOffset : selection.anchorOffset;
    if (focusOffset !== focusNode.textContent.length) { return false; }
    var previous = focusNode.nextSibling;
    if (!previous || $(previous).html() === '') { return true; } else { return false; }
}
function selectionAtStartOfElement() {
    var selection = rangy.getSelection();
    var anchorNode = selection.isBackwards() ? selection.focusNode : selection.anchorNode;
    if (selection.isBackwards() ? selection.focusOffset : selection.anchorOffset !== 0) { return false; }
    var previous = anchorNode.previousSibling;
    if (!previous || $(previous).html() === '') { return true; } else { return false; }
}
```

A boundary node of the native selection is embedded with its text content
and its adjacent siblings; a sibling is recorded as the value of jQuery
`.html()` on it (`none` when `.html()` is not a string, e.g. on a text
node, so that the strict comparison with `''` is false).  Note the JavaScript
operator precedence in `selectionAtStartOfElement`: the condition parses as
`isBackwards() ? focusOffset : (anchorOffset !== 0)`, and a number is truthy
exactly when it is non-zero.
-/

/-- A boundary node of the native selection: its `textContent` and the
`$(sibling).html()` values of its adjacent siblings (`none` = no sibling;
`some h` = a sibling on which jQuery `.html()` returns `h`). -/
structure SelBoundaryNode where
  textContent : List Char
  nextSibling : Option (Option String)
  previousSibling : Option (Option String)
deriving DecidableEq, Repr

/-- The native selection as read by the caret-at-edge queries: anchor and
focus boundaries plus the backwards flag. -/
structure RangySelection where
  anchorNode : SelBoundaryNode
  anchorOffset : Nat
  focusNode : SelBoundaryNode
  focusOffset : Nat
  backwards : Bool
deriving DecidableEq, Repr

/-- `selectionAtEndOfElement` (lines 217-230), embedded exactly as written:
the node is taken from the document-order end, but the offset it is compared
with is taken from the opposite end of the selection. -/
def selectionAtEndOfElement (s : RangySelection) : Bool :=
  let focusNode := if s.backwards then s.anchorNode else s.focusNode
  let focusOffset := if s.backwards then s.focusOffset else s.anchorOffset
  if focusOffset ≠ focusNode.textContent.length then false
  else
    match focusNode.nextSibling with
    | none => true
    | some h => decide (h = some "")

/-- `selectionAtStartOfElement` (lines 232-244); by JavaScript precedence the
guard is `isBackwards() ? focusOffset : (anchorOffset !== 0)`, i.e. the
query returns `false` when the document-order start offset is non-zero. -/
def selectionAtStartOfElement (s : RangySelection) : Bool :=
  let anchorNode := if s.backwards then s.focusNode else s.anchorNode
  if (if s.backwards then s.focusOffset ≠ 0 else s.anchorOffset ≠ 0) then false
  else
    match anchorNode.previousSibling with
    | none => true
    | some h => decide (h = some "")

/-- Modelled from the spec: the document-order end of a selection — the
anchor when the selection is backwards, the focus otherwise ("computed by
inverting anchor/focus when backwards"). -/
def docOrderEndNode (s : RangySelection) : SelBoundaryNode :=
  if s.backwards then s.anchorNode else s.focusNode

/-- Modelled from the spec: the offset of the document-order end. -/
def docOrderEndOffset (s : RangySelection) : Nat :=
  if s.backwards then s.anchorOffset else s.focusOffset

/-- Modelled from the spec: the caret-at-end query as the specification
states it — compare the document-order end node's offset against that same
node's text length, then inspect the next sibling. -/
def atEndOfElementSpec (s : RangySelection) : Bool :=
  if docOrderEndOffset s ≠ (docOrderEndNode s).textContent.length then false
  else
    match (docOrderEndNode s).nextSibling with
    | none => true
    | some h => decide (h = some "")

/-!
## Boundary-element queries (lines 164-215)

```js
function selectionGetElement(range) {
    var commonAncestor;
    range = range || rangy.getSelection().getRangeAt(0);
    if (range.commonAncestorContainer.nodeType === 3) {
        commonAncestor = range.commonAncestorContainer.parentNode;
    } else {
        commonAncestor = range.commonAncestorContainer;
    }
    return $(commonAncestor);
}
function selectionGetStartElement() {
    var selection = rangy.getSelection();
    if (selection.anchorNode === null) { return null; }
    if (selection.isBackwards()) {
        return selection.focusNode.nodeType === 3 ? $(selection.focusNode.parentElement) : $(selection.focusNode);
    }
    return selection.anchorNode.nodeType === 3 ? $(selection.anchorNode.parentElement) : $(selection.anchorNode);
}
```

Selection boundaries are embedded as paths into the document tree; a missing
selection (`anchorNode === null`) is the `none` case.
-/

/-- The parent position of a path (`none` at the root: a node with no parent
element). -/
def parentPath (p : List Nat) : Option (List Nat) :=
  match p with
  | [] => none
  | _ :: _ => some p.dropLast

/-- Resolve a boundary node to an element: a text node is replaced by its
parent element (`node.nodeType === 3 ? $(node.parentElement) : $(node)`). -/
def resolveToElement (root : DomNode) (p : List Nat) : Option DomNode :=
  match getNode root p with
  | some (DomNode.text _ _) =>
      match parentPath p with
      | none => none
      | some pp => getNode root pp
  | some (DomNode.elem i t a cs) => some (DomNode.elem i t a cs)
  | none => none

/-- The anchor/focus boundaries of a live selection, as paths into the
document tree, plus the backwards flag. -/
structure SelEnds where
  anchorPath : List Nat
  focusPath : List Nat
  backwards : Bool
deriving DecidableEq, Repr

/-- `selectionGetStartElement` (lines 194-204): `none` when no selection
exists; otherwise the document-order start boundary (focus when backwards,
anchor otherwise) resolved to an element. -/
def selectionGetStartElement (root : DomNode) (sel : Option SelEnds) : Option DomNode :=
  match sel with
  | none => none
  | some s =>
      if s.backwards then resolveToElement root s.focusPath
      else resolveToElement root s.anchorPath

/-- `selectionGetEndElement` (lines 206-215): `none` when no selection
exists; otherwise the document-order end boundary (anchor when backwards,
focus otherwise) resolved to an element. -/
def selectionGetEndElement (root : DomNode) (sel : Option SelEnds) : Option DomNode :=
  match sel with
  | none => none
  | some s =>
      if s.backwards then resolveToElement root s.anchorPath
      else resolveToElement root s.focusPath

/-- `selectionGetElement` (lines 164-177): the range's common ancestor
container, with a text container replaced by its parent. -/
def selectionGetElement (root : DomNode) (commonAncestorPath : List Nat) : Option DomNode :=
  resolveToElement root commonAncestorPath

/-!
## `selectionConstrain` (lines 504-524)

```js
function selectionConstrain(element, selection) {
    element = $(element)[0];
    selection = selection || rangy.getSelection();
    if (!selection) { selectionSelectStart(element); return; }
    var commonAncestor;
    $(selection.getAllRanges()).each(function(i, range){
        if (this.commonAncestorContainer.nodeType === 3) {
            commonAncestor = $(range.commonAncestorContainer).parent()[0];
        } else {
            commonAncestor = range.commonAncestorContainer;
        }
        if (element !== commonAncestor && !$.contains(element, commonAncestor)) {
            selection.removeRange(range);
        }
    });
}
```

A range is embedded by its boundary paths; its common ancestor container is
the node at the longest common prefix of the two boundary container paths.
`$.contains(a, b)` is strict containment: `b` lies strictly below `a`.
-/

/-- A range of the constrained selection: boundary container paths with
offsets. -/
structure PathRange where
  startPath : List Nat
  startOff : Nat
  endPath : List Nat
  endOff : Nat
deriving DecidableEq, Repr

/-- The longest common prefix of two paths: the path of the range's common
ancestor container. -/
def commonPrefix : List Nat → List Nat → List Nat
  | [], _ => []
  | _, [] => []
  | a :: as, b :: bs => if a = b then a :: commonPrefix as bs else []

/-- The path of the common ancestor container of a range. -/
def commonAncestorPathOf (r : PathRange) : List Nat :=
  commonPrefix r.startPath r.endPath

/-- `$.contains(element, node)` on paths rooted in the same tree: strict
containment, i.e. the element's path is a proper prefix of the node's. -/
def jqContains (element node : List Nat) : Bool :=
  decide (element <+: node) && decide (element ≠ node)

/-- The common ancestor container of a range, with a text container replaced
by its parent (`$(range.commonAncestorContainer).parent()[0]`). -/
def adjustedCommonAncestor (root : DomNode) (r : PathRange) : List Nat :=
  let ca := commonAncestorPathOf r
  match getNode root ca with
  | some (DomNode.text _ _) => ca.dropLast
  | _ => ca

/-- `selectionConstrain` (lines 504-524).  `sel = none` embeds a missing
selection object (`!selection`), in which case a collapsed range is placed
at the element's start (`selectionSelectStart`); otherwise every range whose
common ancestor container — parent element when the container is a text
node — is neither `element` nor strictly inside it is removed. -/
def selectionConstrain (root : DomNode) (element : List Nat)
    (sel : Option (List PathRange)) : List PathRange :=
  match sel with
  | none => [⟨element, 0, element, 0⟩]
  | some ranges =>
      ranges.filter (fun r =>
        let ca := adjustedCommonAncestor root r
        decide (element = ca) || jqContains element ca)

/-!
## `selectionEachBlock` (lines 403-437)

```js
selectionEachRange(function(range) {
    var startBlock = elementClosestBlock($(range.startContainer), limitElement),
        endBlock = elementClosestBlock($(range.endContainer), limitElement),
        blocks;
    if (!startBlock || !endBlock) {
        // Wrap the HTML inside the limit element
        callback(elementWrapInner(limitElement, blockContainer).get(0));
    } else {
        if (startBlock.is(endBlock)) {
            blocks = startBlock;
        } else if (startBlock && endBlock) {
            blocks = startBlock.nextUntil(endBlock).andSelf().add(endBlock);
        }
        for (var i = 0, l = blocks.length; i < l; i++) { callback(blocks[i]); }
    }
});
```

The tree is rooted at the limit element (the limit itself is the path `[]`).
`elementClosestBlock` and `elementWrapInner` live in `element.js`, which is
not part of `src/`, and are modelled from the spec.  Blockness is decided by
the tree adapter's style query, embedded as a predicate `inl` on tag names
("is this element inline?").  jQuery `nextUntil` walks following element
siblings up to (exclusive) the first one equal to its argument; `andSelf`
and `add` merge in document order.  The strict-mode argument checks of the
source are enforced by the types of the embedding.  The embedding covers one
range (per-range behaviour; the outer loop is `selectionEachRange`).
-/

/-- Walk helper for `elementClosestBlock`, structurally recursive over the
reversed path: test the node, then move to the parent by dropping the last
index. -/
def closestBlockRev (inl : String → Bool) (root : DomNode) : List Nat → Option (List Nat)
  | [] => none
  | i :: rest =>
      match getNode root ((i :: rest).reverse) with
      | some (DomNode.elem _ tag _ _) =>
          if inl tag then closestBlockRev inl root rest
          else some ((i :: rest).reverse)
      | _ => closestBlockRev inl root rest

/-- Modelled from the spec: "walk up from both the start and end container
toward `limitElement` until a block-level element is found on each side
(block-level = any element whose layout role is not inline)".  Returns the
path of the nearest ancestor-or-self element below the limit that is not
inline, or `none` when the limit is reached first. -/
def elementClosestBlock (inl : String → Bool) (root : DomNode) (p : List Nat) :
    Option (List Nat) :=
  closestBlockRev inl root p.reverse

/-- Modelled from the spec: `elementWrapInner(limit, tag)` wraps the limit
element's entire content in a new element of the given tag (a `div` when the
tag is not supplied); the wrapper is a fresh node.  Returns the new tree and
the wrapper. -/
def elementWrapInner (root : DomNode) (blockContainer : Option String) :
    DomNode × DomNode :=
  let w := DomNode.elem 0 (blockContainer.getD "div") [] root.childrenOf
  (root.withChildren [w], w)

/-- jQuery `startBlock.nextUntil(endBlock)` over the sibling list: collect
the paths of following element siblings, stopping before the sibling whose
path equals the end block's. -/
def nextUntilAux (parent : List Nat) (sibs : List DomNode) (k : Nat)
    (stop : List Nat) : List (List Nat) :=
  match sibs with
  | [] => []
  | n :: rest =>
      if parent ++ [k] = stop then []
      else (if n.isElem then [parent ++ [k]] else [])
        ++ nextUntilAux parent rest (k + 1) stop

/-- Document order on paths: lexicographic, an ancestor preceding its
descendants. -/
def pathLexLe : List Nat → List Nat → Bool
  | [], _ => true
  | _ :: _, [] => false
  | a :: as, b :: bs =>
      if a < b then true else if b < a then false else pathLexLe as bs

/-- jQuery `.add(node)`: merge a node into a set, keeping document order. -/
def docOrderInsert (p : List Nat) : List (List Nat) → List (List Nat)
  | [] => [p]
  | q :: qs => if pathLexLe q p then q :: docOrderInsert p qs else p :: q :: qs

/-- `selectionEachBlock` (lines 403-437) for one range, rooted at the limit
element.  Returns the (possibly mutated) tree and the list of arguments the
callback is invoked with, in invocation order. -/
def selectionEachBlock (inl : String → Bool) (root : DomNode)
    (startPath endPath : List Nat) (blockContainer : Option String) :
    DomNode × List DomNode :=
  match elementClosestBlock inl root startPath, elementClosestBlock inl root endPath with
  | some sp, some ep =>
      if sp = ep then (root, ((getNode root sp).map (fun n => [n])).getD [])
      else
        let parent := sp.dropLast
        let i := sp.getLastD 0
        let sibs := ((getNode root parent).map DomNode.childrenOf).getD []
        let between := nextUntilAux parent (sibs.drop (i + 1)) (i + 1) ep
        let paths := docOrderInsert ep (sp :: between)
        (root, paths.filterMap (getNode root))
  | _, _ =>
      let wrapped := elementWrapInner root blockContainer
      (wrapped.1, [wrapped.2])

/-!
## Tag rewrite (lines 615-663)

```js
function selectionFindWrappingAndInnerElements(selector, limitElement) {
    var result = new jQuery();
    selectionEachRange(function(range) {
        var startNode = range.startContainer;
        while (startNode.nodeType === Node.TEXT_NODE) { startNode = startNode.parentNode; }
        var endNode = range.endContainer;
        while (endNode.nodeType === Node.TEXT_NODE) { endNode = endNode.parentNode; }
        var filter = function() {
            if (!limitElement.is(this)) { result.push(this); }
        };
        do {
            $(startNode).filter(selector).each(filter);
            if (!limitElement.is(startNode)) {
                $(startNode).parentsUntil(limitElement, selector).each(filter);
            }
            $(startNode).find(selector).each(filter);
            if ($(endNode).is(startNode)) { break; }
            startNode = $(startNode).next();
        } while (startNode.length > 0 && $(startNode).prevAll().has(endNode).length === 0);
    });
    return result;
}
function selectionChangeTags(changeTo, changeFrom, limitElement) {
    selectionSave();
    var elements = selectionFindWrappingAndInnerElements(changeFrom.join(','), limitElement);
    if (elements.length) {
        elementChangeTag(elements, changeTo);
    } else {
        var limitNode = limitElement.get(0);
        limitNode.innerHTML = '<' + changeTo + '>' + limitNode.innerHTML + '</' + changeTo + '>';
    }
    selectionRestore();
}
```

The tree is rooted at the limit element (path `[]`).  The selector
`changeFrom.join(',')` is a disjunction of tag names, embedded as the tag
list itself.  jQuery `.next()` is the next element sibling, `.prevAll()` the
preceding element siblings, and `.has(node)` keeps those with the node as a
strict descendant.  The do-while loop is given fuel bounded by the node
count of the tree, which exceeds the number of sibling steps it can take.
-/

/-- `while (node.nodeType === Node.TEXT_NODE) node = node.parentNode`,
structurally recursive over the reversed path. -/
def nonTextAncestorRev (root : DomNode) : List Nat → List Nat
  | [] => []
  | i :: rest =>
      match getNode root ((i :: rest).reverse) with
      | some (DomNode.text _ _) => nonTextAncestorRev root rest
      | _ => (i :: rest).reverse

/-- The nearest non-text ancestor-or-self of the node at a path. -/
def nonTextAncestor (root : DomNode) (p : List Nat) : List Nat :=
  nonTextAncestorRev root p.reverse

/-- A tag-list selector test: element nodes whose tag is in the list. -/
def matchesSelector (tags : List String) (n : DomNode) : Bool :=
  n.isElem && tags.contains n.tagOf

/-- The proper ancestors of a path below the root, closest first, excluding
the root itself (`parentsUntil(limitElement)`), from the reversed path. -/
def properAncestorsBelow : List Nat → List (List Nat)
  | [] => []
  | _ :: rest =>
      match rest with
      | [] => []
      | _ :: _ => rest.reverse :: properAncestorsBelow rest

mutual

/-- Paths of the descendants of a node (preorder document order) matching a
tag-list selector (`find(selector)`); `base` is the node's own path. -/
def findDescPaths (tags : List String) (base : List Nat) : DomNode → List (List Nat)
  | DomNode.text _ _ => []
  | DomNode.elem _ _ _ children => findDescPathsList tags base 0 children

/-- `findDescPaths` over a child list starting at child index `k`. -/
def findDescPathsList (tags : List String) (base : List Nat) (k : Nat) :
    List DomNode → List (List Nat)
  | [] => []
  | c :: rest =>
      ((if matchesSelector tags c then [base ++ [k]] else [])
        ++ findDescPaths tags (base ++ [k]) c)
        ++ findDescPathsList tags base (k + 1) rest

end

mutual

/-- The number of nodes of a subtree. -/
def nodeCount : DomNode → Nat
  | DomNode.text _ _ => 1
  | DomNode.elem _ _ _ children => 1 + nodeCountList children

/-- The number of nodes of a forest. -/
def nodeCountList : List DomNode → Nat
  | [] => 0
  | c :: cs => nodeCount c + nodeCountList cs

end

/-- Scan a sibling list for the first element node (`$(node).next()`). -/
def nextElemSiblingAux (parent : List Nat) (sibs : List DomNode) (j : Nat) :
    Option (List Nat) :=
  match sibs with
  | [] => none
  | c :: rest =>
      if c.isElem then some (parent ++ [j]) else nextElemSiblingAux parent rest (j + 1)

/-- jQuery `.next()`: the path of the next element sibling, if any. -/
def nextElemSibling (root : DomNode) (p : List Nat) : Option (List Nat) :=
  match p with
  | [] => none
  | _ :: _ =>
      let parent := p.dropLast
      let i := p.getLastD 0
      let sibs := ((getNode root parent).map DomNode.childrenOf).getD []
      nextElemSiblingAux parent (sibs.drop (i + 1)) (i + 1)

/-- `$(node).prevAll().has(endNode).length !== 0`: some preceding element
sibling of the node has the end node as a strict descendant. -/
def prevAllHas (root : DomNode) (p endP : List Nat) : Bool :=
  match p with
  | [] => false
  | _ :: _ =>
      let parent := p.dropLast
      let i := p.getLastD 0
      let sibs := ((getNode root parent).map DomNode.childrenOf).getD []
      (List.range i).any (fun j =>
        ((sibs[j]?).elim false DomNode.isElem) && jqContains (parent ++ [j]) endP)

/-- One range's do-while loop of `selectionFindWrappingAndInnerElements`:
at the current start node, push it when it matches the selector (the limit is
excluded by the `filter` closure), push its matching ancestors below the
limit, push its matching descendants; stop at the end node, else advance to
the next element sibling while the end node has not been passed. -/
def sfwiLoop (tags : List String) (root : DomNode) (endP : List Nat) :
    Nat → List Nat → List (List Nat)
  | 0, _ => []
  | fuel + 1, sp =>
      let spNode := (getNode root sp).getD (DomNode.text 0 [])
      let here :=
        (if matchesSelector tags spNode && decide (sp ≠ []) then [sp] else [])
          ++ (if sp ≠ [] then
                (properAncestorsBelow sp.reverse).filter
                  (fun q => matchesSelector tags ((getNode root q).getD (DomNode.text 0 [])))
              else [])
          ++ findDescPaths tags sp spNode
      if endP = sp then here
      else
        match nextElemSibling root sp with
        | none => here
        | some sp' =>
            if prevAllHas root sp' endP then here
            else here ++ sfwiLoop tags root endP fuel sp'

/-- `selectionFindWrappingAndInnerElements` (lines 615-651) for one range:
paths of the collected elements, in collection order. -/
def selectionFindWrappingAndInnerElements (tags : List String) (root : DomNode)
    (startP endP : List Nat) : List (List Nat) :=
  sfwiLoop tags root (nonTextAncestor root endP) (nodeCount root)
    (nonTextAncestor root startP)

/-- Modelled from the spec: `elementChangeTag` renames a matched element's
tag to `changeTo`, "preserving attributes and children". -/
def elementChangeTag (root : DomNode) (p : List Nat) (changeTo : String) : DomNode :=
  modifyAt root p (fun n =>
    match n with
    | DomNode.elem i _ a cs => DomNode.elem i changeTo a cs
    | t => t)

/-- `selectionChangeTags` (lines 653-663).  `selectionSave`/`selectionRestore`
insert and later remove marker nodes; their net effect on the tree content is
the identity and they are embedded as such.  The wrap branch assigns
`limitNode.innerHTML`, which serialises and re-parses the content: the former
children reappear as fresh nodes inside the new wrapper element. -/
def selectionChangeTags (changeTo : String) (changeFrom : List String)
    (root : DomNode) (startP endP : List Nat) : DomNode :=
  let els := selectionFindWrappingAndInnerElements changeFrom root startP endP
  if els.isEmpty then
    root.withChildren [DomNode.elem 0 changeTo [] (zeroIdsList root.childrenOf)]
  else
    els.foldl (fun t p => elementChangeTag t p changeTo) root

/-!
## Validity-constrained replacement (lines 314-371)

```js
function selectionReplaceSplittingSelectedElement(html, selection) {
    var selectionRange = selection.getRangeAt(0);
    var selectedElement = selectionGetElements()[0];
    var startRange = rangy.createRange();
    startRange.setStartBefore(selectedElement);
    startRange.setEnd(selectionRange.startContainer, selectionRange.startOffset);
    var startFragment = startRange.cloneContents();
    var endRange = rangy.createRange();
    endRange.setStart(selectionRange.endContainer, selectionRange.endOffset);
    endRange.setEndAfter(selectedElement);
    var endFragment = endRange.cloneContents();
    var replacement = elementOuterHtml($(fragmentToHtml(startFragment)));
    replacement += elementOuterHtml($(html).attr('data-replacement', true));
    replacement += elementOuterHtml($(fragmentToHtml(endFragment)));
    replacement = $(replacement);
    $(selectedElement).replaceWith(replacement);
    return replacement.parent().find('[data-replacement]').removeAttr('data-replacement');
}
function selectionReplaceWithinValidTags(html, validTagNames, selection) {
    selection = selection || rangy.getSelection();
    if (selection.rangeCount === 0) { return; }
    var startElement = selectionGetStartElement()[0];
    var endElement = selectionGetEndElement()[0];
    var selectedElement = selectionGetElements()[0];
    var selectedElementValid = elementIsValid(selectedElement, validTagNames);
    var startElementValid = elementIsValid(startElement, validTagNames);
    var endElementValid = elementIsValid(endElement, validTagNames);
    if (selectedElementValid && startElementValid && endElementValid) {
        return selectionReplace(html);
    }
    return selectionReplaceSplittingSelectedElement(html, selection);
}
```

The embedding's document is the children list of the selected element's
parent; the single selected range lies inside one text child of the selected
element (`CfRange` records the selected element's index, the text child's
index and the character offsets).  For such a range the start element, end
element and common-ancestor element all resolve to the selected element.
Cloning a range that reaches from before the selected element to a boundary
inside it yields a partial copy of the element; concatenating the serialised
fragments and re-parsing them produces fresh nodes (id `0`).
-/

/-- A range whose boundaries lie inside a single text child of an element:
the element's child index in the document, the text child's index in the
element, and the start/end character offsets. -/
structure CfRange where
  blockIdx : Nat
  childIdx : Nat
  startOff : Nat
  endOff : Nat
deriving DecidableEq, Repr

/-- Modelled from the spec: `elementIsValid(element, validTagNames)` tests
whether the element's tag is a member of `validTagNames`. -/
def elementIsValid (tag : String) (validTagNames : List String) : Bool :=
  validTagNames.contains tag

/-- jQuery `.attr(key, value)`: set an attribute on an element (no-op on a
text node). -/
def jqSetAttr (n : DomNode) (key val : String) : DomNode :=
  match n with
  | DomNode.elem i t a cs =>
      DomNode.elem i t (a.filter (fun p => decide (p.1 ≠ key)) ++ [(key, val)]) cs
  | t => t

mutual

/-- `find('[data-replacement]').removeAttr('data-replacement')` over a
subtree: remove the marker attribute everywhere. -/
def stripReplacementAttr : DomNode → DomNode
  | DomNode.text i s => DomNode.text i s
  | DomNode.elem i t a cs =>
      DomNode.elem i t (a.filter (fun p => decide (p.1 ≠ "data-replacement")))
        (stripReplacementAttrList cs)

/-- `stripReplacementAttr` over a forest. -/
def stripReplacementAttrList : List DomNode → List DomNode
  | [] => []
  | c :: cs => stripReplacementAttr c :: stripReplacementAttrList cs

end

mutual

/-- Whether the marker attribute occurs anywhere in a subtree. -/
def hasReplacementAttr : DomNode → Bool
  | DomNode.text _ _ => false
  | DomNode.elem _ _ a cs =>
      a.any (fun p => decide (p.1 = "data-replacement")) || hasReplacementAttrList cs

/-- `hasReplacementAttr` over a forest. -/
def hasReplacementAttrList : List DomNode → Bool
  | [] => false
  | c :: cs => hasReplacementAttr c || hasReplacementAttrList cs

end

/-- Modelled from the spec: `Range.replace` "extracts existing contents
(discarding them) and inserts `content` at the former start boundary" — for
a range inside one text child, the text is split around the inserted node.
This is the per-range tree effect of the `selectionReplace` call on
line 366. -/
def rangeReplaceInText (html : DomNode) (parentChildren : List DomNode)
    (r : CfRange) : List DomNode :=
  match parentChildren[r.blockIdx]? with
  | some (DomNode.elem sid stag sattrs cs) =>
      match cs[r.childIdx]? with
      | some (DomNode.text tid s) =>
          let newCs := cs.take r.childIdx
            ++ [DomNode.text tid (s.take r.startOff), html, DomNode.text 0 (s.drop r.endOff)]
            ++ cs.drop (r.childIdx + 1)
          parentChildren.take r.blockIdx ++ [DomNode.elem sid stag sattrs newCs]
            ++ parentChildren.drop (r.blockIdx + 1)
      | _ => parentChildren
  | _ => parentChildren

/-- `selectionReplaceSplittingSelectedElement` (lines 314-341): clone the
selected element's head up to the selection start and its tail from the
selection end, mark the inserted html with `data-replacement`, replace the
selected element by the serialised-and-reparsed concatenation (fresh nodes),
and strip the marker attribute under the parent. -/
def selectionReplaceSplittingSelectedElement (html : DomNode)
    (parentChildren : List DomNode) (r : CfRange) : List DomNode :=
  match parentChildren[r.blockIdx]? with
  | some (DomNode.elem _ stag sattrs cs) =>
      match cs[r.childIdx]? with
      | some (DomNode.text _ s) =>
          let startFragment := DomNode.elem 0 stag sattrs
            (zeroIdsList (cs.take r.childIdx) ++ [DomNode.text 0 (s.take r.startOff)])
          let endFragment := DomNode.elem 0 stag sattrs
            (DomNode.text 0 (s.drop r.endOff) :: zeroIdsList (cs.drop (r.childIdx + 1)))
          let middle := zeroIds (jqSetAttr html "data-replacement" "true")
          let spliced := parentChildren.take r.blockIdx
            ++ [startFragment, middle, endFragment]
            ++ parentChildren.drop (r.blockIdx + 1)
          stripReplacementAttrList spliced
      | _ => parentChildren
  | _ => parentChildren

/-- `selectionReplaceWithinValidTags` (lines 350-371): nothing happens
without a range; when the common-ancestor element, start element and end
element are all valid the replacement happens in place, otherwise the
selected element is split. -/
def selectionReplaceWithinValidTags (html : DomNode) (validTagNames : List String)
    (parentChildren : List DomNode) (sel : Option CfRange) : List DomNode :=
  match sel with
  | none => parentChildren
  | some r =>
      match parentChildren[r.blockIdx]? with
      | some (DomNode.elem _ stag _ _) =>
          -- for a range inside a text child of the selected element, the
          -- start, end and common-ancestor elements all resolve to it
          let selectedElementValid := elementIsValid stag validTagNames
          let startElementValid := elementIsValid stag validTagNames
          let endElementValid := elementIsValid stag validTagNames
          if selectedElementValid && startElementValid && endElementValid then
            rangeReplaceInText html parentChildren r
          else
            selectionReplaceSplittingSelectedElement html parentChildren r
      | _ => parentChildren

/-!
## `selectionClearFormatting` (lines 527-572)

```js
function selectionClearFormatting(limitNode, selection) {
    limitNode = limitNode || document.body;
    selection = selection || rangy.getSelection();
    if (selection.rangeCount > 0) {
        var range = selection.getRangeAt(0).cloneRange();
        var content = range.extractContents();
        if (fragmentToHtml(content) === '') {
            rangeExpandToParent(range);
            selection.setSingleRange(range);
            content = range.extractContents();
        }
        content = $('<div/>').append(fragmentToHtml(content)).text();
        var parent = range.commonAncestorContainer;
        while (parent && parent.parentNode != limitNode) { parent = parent.parentNode; }
        if (parent) {
            range.setEndAfter(parent);
            var contentAfterRangeStart = range.extractContents();
            range.collapseAfter(parent);
            range.insertNode(contentAfterRangeStart);
            range.collapseAfter(parent);
            range.insertNode(document.createTextNode(content));
        } else {
            range.insertNode(document.createTextNode(content));
        }
    }
}
```

The document is the children list of the limit node; the first range lies
inside a single text child of a block child of the limit (`CfRange`).  DOM
range operations on this shape: extracting a range inside one text node
clones the substring out and the node keeps the remainder, with the range
collapsing to the former start; extracting from a boundary inside the block
to a boundary after the block clones the partially-contained block and text
(fresh nodes, id `0`) and moves the fully-contained trailing children into
the clone; `insertNode` inserts at the range's start boundary.
-/

/-- `while (parent && parent.parentNode != limitNode) parent = parent.parentNode`
for a path below the limit (the root): repeatedly dropping the last index
until a single index remains keeps the first coordinate; the root itself has
no such ancestor. -/
def walkToChildOfLimit (p : List Nat) : Option Nat := p.head?

/-- `selectionClearFormatting` (lines 527-572) on the children of the limit
node, for a first range lying inside one text child of a block child of the
limit. -/
def selectionClearFormatting (limitChildren : List DomNode) (sel : Option CfRange) :
    List DomNode :=
  match sel with
  | none => limitChildren
  | some r =>
      match limitChildren[r.blockIdx]? with
      | some (DomNode.elem bid btag battrs bcs) =>
          match bcs[r.childIdx]? with
          | some (DomNode.text tid s) =>
              let selChars := (s.take r.endOff).drop r.startOff
              let fragment := [DomNode.text 0 selChars]
              let sRemain := s.take r.startOff ++ s.drop r.endOff
              if (htmlOfList fragment).isEmpty then
                -- rangeExpandToParent: Modelled from the spec: "widens
                -- start/end to fully enclose the nearest non-empty containing
                -- element"; re-extraction then empties the containing block,
                -- and the relocation steps below move nothing.
                let contentText := textOfList bcs
                limitChildren.take r.blockIdx
                  ++ [DomNode.elem bid btag battrs [],
                      DomNode.text 0 contentText,
                      DomNode.elem 0 btag battrs []]
                  ++ limitChildren.drop (r.blockIdx + 1)
              else
                let contentText := textOfList fragment
                match walkToChildOfLimit [r.blockIdx, r.childIdx] with
                | some i =>
                    let blockTrimmed := DomNode.elem bid btag battrs
                      (bcs.take r.childIdx ++ [DomNode.text tid (sRemain.take r.startOff)])
                    let blockClone := DomNode.elem 0 btag battrs
                      (DomNode.text 0 (sRemain.drop r.startOff) :: bcs.drop (r.childIdx + 1))
                    limitChildren.take i
                      ++ [blockTrimmed, DomNode.text 0 contentText, blockClone]
                      ++ limitChildren.drop (i + 1)
                | none =>
                    -- no containing block found: insert the flattened text at
                    -- the original (collapsed) position inside the text node
                    let newCs := bcs.take r.childIdx
                      ++ [DomNode.text tid (sRemain.take r.startOff),
                          DomNode.text 0 contentText,
                          DomNode.text 0 (sRemain.drop r.startOff)]
                      ++ bcs.drop (r.childIdx + 1)
                    limitChildren.take r.blockIdx
                      ++ [DomNode.elem bid btag battrs newCs]
                      ++ limitChildren.drop (r.blockIdx + 1)
          | _ => limitChildren
      | _ => limitChildren

/-!
## Concrete instances used by the claim theorems
-/

/-- The element children of the common parent with indices from `i` through
`j` inclusive, in document order — the callback run of `selectionEachBlock`
when both sides resolve to sibling blocks. -/
def docOrderSiblingRun (children : List DomNode) (i j : Nat) : List DomNode :=
  ((children.take (j + 1)).drop i).filter DomNode.isElem

/-- The end-to-end tree of the spec's tag-rewrite examples:
`<p>Hello <b>world</b></p>` (node ids 1-4). -/
def c4Tree : DomNode :=
  DomNode.elem 1 "p" []
    [DomNode.text 2 "Hello ".data,
     DomNode.elem 3 "b" [] [DomNode.text 4 "world".data]]

/-- Style query for the block-resolver scenarios: only `div` is block-level. -/
def c6Inl : String → Bool := fun t => t ≠ "div"

/-- Block-resolver scenario: the limit's content is a block followed by a
bare text node, so the end container resolves to no block. -/
def c6Tree : DomNode :=
  DomNode.elem 1 "lim" []
    [DomNode.elem 2 "div" [] [DomNode.text 3 "x".data],
     DomNode.text 4 "y".data]

/-- Block-resolver scenario with two sibling blocks separated by a text node
and an inline element: `lim > [div, text, span, div]`. -/
def c6Tree2 : DomNode :=
  DomNode.elem 1 "lim" []
    [DomNode.elem 2 "div" [] [DomNode.text 3 "x".data],
     DomNode.text 4 "t".data,
     DomNode.elem 5 "span" [] [],
     DomNode.elem 6 "div" [] [DomNode.text 7 "y".data]]

/-- Constrain scenario: a root with two element children; the constraint
element is the first child. -/
def c8Root : DomNode :=
  DomNode.elem 1 "r" [] [DomNode.elem 2 "a" [] [], DomNode.elem 3 "b" [] []]

/-- A range whose common ancestor is the second child of `c8Root`, i.e.
outside the constraint element. -/
def c8Range : PathRange := ⟨[1], 0, [1], 0⟩

/-- Caret-at-end scenario: a text node `"abc"` with no siblings. -/
def c7Node : SelBoundaryNode := ⟨"abc".data, none, none⟩

/-- A forwards (not backwards) selection from offset 0 to offset 3 of
`c7Node`: its document-order end sits at the very end of the text. -/
def c7Sel : RangySelection := ⟨c7Node, 0, c7Node, 3, false⟩

/-- Element-query scenario: a `div` with a text child. -/
def c10Root : DomNode := DomNode.elem 1 "div" [] [DomNode.text 2 "ab".data]

/-- A forwards selection anchored in the text child of `c10Root`. -/
def c10Sel : SelEnds := ⟨[0], [0], false⟩

/-!
# Theorems

Helper lemmas first, then one theorem per claim, each with a witness or a
counterexample where required.
-/

/-- Membership in the result of `jqRemoveClass`. -/
theorem mem_jqRemoveClass {cl : String} {b cs : List String} :
    cl ∈ jqRemoveClass b cs ↔ cl ∈ b ∧ cl ∉ cs := by
  simp [jqRemoveClass, List.mem_filter]

/-- Membership in the result of `jqAddClass`. -/
theorem mem_jqAddClass {cl : String} {b cs : List String} :
    cl ∈ jqAddClass b cs ↔ cl ∈ b ∨ (cl ∈ cs ∧ cl ∉ b) := by
  simp [jqAddClass, List.mem_filter, List.mem_append]

/-- The range the iteration hands to the callback at step `k` is entry
`i + k` of the range set fetched from the state reached after the preceding
`k` callbacks — the set is re-fetched every iteration, never cached. -/
theorem eachRangeAux_refetch {σ ρ : Type} (gar : σ → List ρ) (cb : ρ → σ → σ) :
    ∀ (fuel i k : Nat) (s : σ),
      k < ((selectionEachRangeAux gar cb fuel i s).2).length →
      (gar (selectionStatesFold cb s
          (((selectionEachRangeAux gar cb fuel i s).2).take k)))[i + k]?
        = ((selectionEachRangeAux gar cb fuel i s).2)[k]? := by
  intro fuel
  induction fuel with
  | zero => intro i k s hk; simp [selectionEachRangeAux] at hk
  | succ fuel ih =>
    intro i k s hk
    cases h : (gar s)[i]? with
    | none => rw [selectionEachRangeAux, h] at hk; simp at hk
    | some r =>
      rw [selectionEachRangeAux, h] at hk ⊢
      cases k with
      | zero => simpa [selectionStatesFold] using h
      | succ k =>
        simp only [List.length_cons, Nat.succ_lt_succ_iff] at hk
        have := ih (i + 1) k (cb r s) hk
        simp only [List.take_succ_cons, List.getElem?_cons_succ]
        rw [show i + (k + 1) = (i + 1) + k by omega]
        simpa [selectionStatesFold] using this

/-- With callbacks that leave the range set unchanged, the iteration visits
exactly the ranges of the set from index `i` on, each once, in order. -/
theorem eachRangeAux_stable {σ ρ : Type} (gar : σ → List ρ) (cb : ρ → σ → σ)
    (hstable : ∀ r t, gar (cb r t) = gar t) :
    ∀ (fuel i : Nat) (s : σ), (gar s).length ≤ i + fuel →
      (selectionEachRangeAux gar cb fuel i s).2 = (gar s).drop i := by
  intro fuel
  induction fuel with
  | zero =>
    intro i s hle
    rw [selectionEachRangeAux, List.drop_eq_nil_of_le (by omega)]
  | succ fuel ih =>
    intro i s hle
    cases h : (gar s)[i]? with
    | none =>
      have hlen : (gar s).length ≤ i := by
        by_contra hc
        push_neg at hc
        rw [List.getElem?_eq_getElem hc] at h
        cases h
      rw [selectionEachRangeAux, h, List.drop_eq_nil_of_le hlen]
    | some r =>
      have hi : i < (gar s).length := by
        by_contra hc
        push_neg at hc
        rw [List.getElem?_eq_none hc] at h
        cases h
      have hrest := ih (i + 1) (cb r s) (by rw [hstable]; omega)
      rw [selectionEachRangeAux, h]
      simp only
      rw [hrest, hstable, List.drop_eq_getElem_cons hi]
      have : (gar s)[i] = r := by
        have := List.getElem?_eq_getElem hi
        rw [this] at h
        exact Option.some.inj h
      rw [this]

/-- **C1.**  `selectionEachRange` re-fetches the full current range set from
the selection after every callback invocation and never caches ranges: the
range delivered at step `k` is entry `k` of the range set of the state
produced by the preceding callbacks (first conjunct); when the callbacks
leave the range set unchanged, the callback is invoked exactly once for each
range of the selection's current range set (second conjunct); and in the
concrete two-range scenario in which the first callback removes the node the
second range's boundary refers to, the iteration stops cleanly after the
first callback instead of dereferencing the stale boundary (third
conjunct). -/
theorem selectionEachRange_refetches_ranges :
    (∀ (σ ρ : Type) (gar : σ → List ρ) (cb : ρ → σ → σ) (fuel i k : Nat) (s : σ),
        k < ((selectionEachRangeAux gar cb fuel i s).2).length →
        (gar (selectionStatesFold cb s
            (((selectionEachRangeAux gar cb fuel i s).2).take k)))[i + k]?
          = ((selectionEachRangeAux gar cb fuel i s).2)[k]?)
    ∧ (∀ (σ ρ : Type) (gar : σ → List ρ) (cb : ρ → σ → σ) (fuel : Nat) (s : σ),
        (∀ r t, gar (cb r t) = gar t) → (gar s).length ≤ fuel →
        (selectionEachRange gar cb fuel s).2 = gar s)
    ∧ (selectionEachRange c1GetAllRanges c1Callback 5 c1Init).2 = [1] := by
  refine ⟨?_, ?_, by decide⟩
  · intro σ ρ gar cb fuel i k s hk
    exact eachRangeAux_refetch gar cb fuel i k s hk
  · intro σ ρ gar cb fuel s hstable hle
    have := eachRangeAux_stable gar cb hstable fuel 0 s (by omega)
    simpa [selectionEachRange] using this

/-- Witness for C1: the exactly-once conjunct applied to a concrete selection
whose callbacks do not mutate the range set. -/
theorem selectionEachRange_refetches_ranges_witness :
    (selectionEachRange (fun s : List Nat => s) (fun _ t => t) 3 [7, 8]).2 = [7, 8] :=
  selectionEachRange_refetches_ranges.2.1 (List Nat) Nat (fun s => s) (fun _ t => t) 3
    [7, 8] (fun _ _ => rfl) (by decide)

/-- **C9.**  `selectionReplace` performs one `rangeReplace` per range of the
selection — the log of the concrete run records both ranges being replaced —
but since the per-range results are accumulated only through a discarded
`Array.prototype.concat`, it returns the empty list instead of the list
`[10, 20]` of the per-range replacement results. -/
theorem selectionReplace_returns_empty_list :
    selectionReplace c9RangeReplace c9Gar 5 c9Init = (⟨[10, 20], [10, 20]⟩, [])
      ∧ (selectionReplace c9RangeReplace c9Gar 5 c9Init).2 ≠ [10, 20] := by
  exact ⟨by decide, by decide⟩

/-- **C7.**  `selectionAtEndOfElement` pairs the document-order end node with
the offset of the opposite end of the selection: on a forwards selection over
the whole text `"abc"` (anchor offset `0`, focus offset `3`, no next
sibling), whose document-order end offset does equal the end node's text
length, the code compares the anchor offset `0` with the length `3` and
returns `false`, while resolving with the document-order end as the
specification requires yields `true`. -/
theorem selectionAtEndOfElement_mismatched_offset :
    selectionAtEndOfElement c7Sel = false
      ∧ atEndOfElementSpec c7Sel = true
      ∧ docOrderEndOffset c7Sel = (docOrderEndNode c7Sel).textContent.length := by
  exact ⟨by decide, by decide, by decide⟩

/-- **C8 counterexample.**  Constraining the selection to the first child of
`c8Root` when its only range lives in the second child removes that range and
leaves the selection empty: no collapsed fallback range at the element's
start is placed, contrary to the claim's fallback clause. -/
theorem selectionConstrain_no_fallback_counterexample :
    selectionConstrain c8Root [0] (some [c8Range]) = []
      ∧ selectionConstrain c8Root [0] (some [c8Range]) ≠ [⟨[0], 0, [0], 0⟩] := by
  exact ⟨by decide, by decide⟩

/-- **C8 (amended).**  `selectionConstrain` keeps exactly those ranges whose
common ancestor container (parent element when the container is a text node)
is the element itself or strictly contained in it, removing all others; the
collapsed fallback range at the element's start is placed only when the
selection object itself is absent, never because the removal left zero
ranges behind. -/
theorem selectionConstrain_filters_without_fallback :
    (∀ (root : DomNode) (element : List Nat) (ranges : List PathRange) (r : PathRange),
        r ∈ selectionConstrain root element (some ranges)
          ↔ r ∈ ranges
              ∧ (element = adjustedCommonAncestor root r
                 ∨ (element <+: adjustedCommonAncestor root r
                    ∧ element ≠ adjustedCommonAncestor root r)))
    ∧ (∀ (root : DomNode) (element : List Nat),
        selectionConstrain root element none = [⟨element, 0, element, 0⟩]) := by
  constructor
  · intro root element ranges r
    simp [selectionConstrain, List.mem_filter, jqContains]
  · intro root element
    rfl

/-- **C2.**  `selectionToggleBlockClasses` decides once, union-wide, from the
collected blocks: if at least one collected block misses at least one of
`addClasses`, every add-class is applied to all blocks (first conjunct);
otherwise the add-classes are removed from all blocks (second conjunct);
`removeClasses` (outside `addClasses`) are stripped from every block
unconditionally (third conjunct); consequently afterwards either every block
carries every add-class or no block carries any (fourth conjunct). -/
theorem selectionToggleBlockClasses_union_decision :
    ∀ (addClasses removeClasses : List String) (blocks : List (List String)),
      ((∃ b ∈ blocks, ∃ cl ∈ addClasses, cl ∉ b) →
        ∀ b' ∈ selectionToggleBlockClasses addClasses removeClasses blocks,
          ∀ cl ∈ addClasses, cl ∈ b')
      ∧ ((∀ b ∈ blocks, ∀ cl ∈ addClasses, cl ∈ b) →
        ∀ b' ∈ selectionToggleBlockClasses addClasses removeClasses blocks,
          ∀ cl ∈ addClasses, cl ∉ b')
      ∧ (∀ cl ∈ removeClasses, cl ∉ addClasses →
        ∀ b' ∈ selectionToggleBlockClasses addClasses removeClasses blocks, cl ∉ b')
      ∧ ((∀ b' ∈ selectionToggleBlockClasses addClasses removeClasses blocks,
            ∀ cl ∈ addClasses, cl ∈ b')
        ∨ (∀ b' ∈ selectionToggleBlockClasses addClasses removeClasses blocks,
            ∀ cl ∈ addClasses, cl ∉ b')) := by
  intro addClasses removeClasses blocks
  have hiff : (blocks.any (fun b => addClasses.any (fun c => decide (c ∉ b))) = true)
      ↔ ∃ b ∈ blocks, ∃ cl ∈ addClasses, cl ∉ b := by
    simp [List.any_eq_true]
  by_cases happ : ∃ b ∈ blocks, ∃ cl ∈ addClasses, cl ∉ b
  · have hout : selectionToggleBlockClasses addClasses removeClasses blocks
        = (blocks.map (fun b => jqRemoveClass b removeClasses)).map
            (fun b => jqAddClass b addClasses) := by
      rw [selectionToggleBlockClasses]
      simp only [hiff.mpr happ, if_true]
    have hall : ∀ b' ∈ selectionToggleBlockClasses addClasses removeClasses blocks,
        ∀ cl ∈ addClasses, cl ∈ b' := by
      intro b' hb' cl hcl
      rw [hout] at hb'
      obtain ⟨b1, _, rfl⟩ := List.mem_map.mp hb'
      rw [mem_jqAddClass]
      by_cases hmem : cl ∈ b1
      · exact Or.inl hmem
      · exact Or.inr ⟨hcl, hmem⟩
    refine ⟨fun _ => hall, ?_, ?_, Or.inl hall⟩
    · intro hcontra
      obtain ⟨b, hb, cl, hcl, hnot⟩ := happ
      exact absurd (hcontra b hb cl hcl) hnot
    · intro cl hclrem hclnadd b' hb'
      rw [hout] at hb'
      obtain ⟨b1, hb1, rfl⟩ := List.mem_map.mp hb'
      obtain ⟨b0, _, rfl⟩ := List.mem_map.mp hb1
      rw [mem_jqAddClass]
      rintro (hmem | ⟨hmem, -⟩)
      · exact (mem_jqRemoveClass.mp hmem).2 hclrem
      · exact hclnadd hmem
  · have hout : selectionToggleBlockClasses addClasses removeClasses blocks
        = (blocks.map (fun b => jqRemoveClass b removeClasses)).map
            (fun b => jqRemoveClass b addClasses) := by
      rw [selectionToggleBlockClasses]
      have : blocks.any (fun b => addClasses.any (fun c => decide (c ∉ b))) = false := by
        rw [Bool.eq_false_iff]
        intro hc
        exact happ (hiff.mp hc)
      simp only [this, Bool.false_eq_true, if_false]
    have hnone : ∀ b' ∈ selectionToggleBlockClasses addClasses removeClasses blocks,
        ∀ cl ∈ addClasses, cl ∉ b' := by
      intro b' hb' cl hcl hmem
      rw [hout] at hb'
      obtain ⟨b1, _, rfl⟩ := List.mem_map.mp hb'
      exact (mem_jqRemoveClass.mp hmem).2 hcl
    refine ⟨fun h => absurd h happ, fun _ => hnone, ?_, Or.inr hnone⟩
    intro cl hclrem _ b' hb' hmem
    rw [hout] at hb'
    obtain ⟨b1, hb1, rfl⟩ := List.mem_map.mp hb'
    obtain ⟨b0, _, rfl⟩ := List.mem_map.mp hb1
    have h1 := (mem_jqRemoveClass.mp hmem).1
    exact (mem_jqRemoveClass.mp h1).2 hclrem

/-- Witness for C2: a block set in which the second block misses the class
`"x"` — after the toggle, the first block (originally already carrying
`"x"`) still carries it. -/
theorem selectionToggleBlockClasses_union_decision_witness :
    "x" ∈ jqAddClass (jqRemoveClass ["x"] []) ["x"] :=
  (selectionToggleBlockClasses_union_decision ["x"] [] [["x"], []]).1
    (by decide) (jqAddClass (jqRemoveClass ["x"] []) ["x"]) (by decide) "x" (by decide)

/-- **C4.**  `selectionChangeTags` wraps the limit element's entire inner
content in a new `changeTo` element when no element matching `changeFrom` is
found near the selection (first conjunct), and renames every matched element
(preserving attributes and children) when matches exist (second conjunct);
concretely, on `<p>Hello <b>world</b></p>` with `"world"` selected,
`changeTags('i', ['b'])` yields `<p>Hello <i>world</i></p>` (rename, not
re-wrap; third conjunct) and `changeTags('i', ['em'])` yields
`<p><i>Hello <b>world</b></i></p>` (wrap; fourth conjunct). -/
theorem selectionChangeTags_rename_or_wrap :
    (∀ (changeTo : String) (changeFrom : List String) (root : DomNode) (sp ep : List Nat),
        selectionFindWrappingAndInnerElements changeFrom root sp ep = [] →
        selectionChangeTags changeTo changeFrom root sp ep
          = root.withChildren [DomNode.elem 0 changeTo [] (zeroIdsList root.childrenOf)])
    ∧ (∀ (changeTo : String) (changeFrom : List String) (root : DomNode) (sp ep : List Nat),
        selectionFindWrappingAndInnerElements changeFrom root sp ep ≠ [] →
        selectionChangeTags changeTo changeFrom root sp ep
          = (selectionFindWrappingAndInnerElements changeFrom root sp ep).foldl
              (fun t p => elementChangeTag t p changeTo) root)
    ∧ selectionChangeTags "i" ["b"] c4Tree [1, 0] [1, 0]
        = DomNode.elem 1 "p" []
            [DomNode.text 2 "Hello ".data,
             DomNode.elem 3 "i" [] [DomNode.text 4 "world".data]]
    ∧ selectionChangeTags "i" ["em"] c4Tree [1, 0] [1, 0]
        = DomNode.elem 1 "p" []
            [DomNode.elem 0 "i" []
               [DomNode.text 0 "Hello ".data,
                DomNode.elem 0 "b" [] [DomNode.text 0 "world".data]]] := by
  refine ⟨?_, ?_, by decide, by decide⟩
  · intro changeTo changeFrom root sp ep h
    rw [selectionChangeTags]
    simp only [h, List.isEmpty_nil, if_true]
  · intro changeTo changeFrom root sp ep h
    rw [selectionChangeTags]
    rw [if_neg (by simpa [List.isEmpty_iff] using h)]

/-- Witness for C4: the wrap branch applied at a concrete tree in which the
selector finds no match. -/
theorem selectionChangeTags_rename_or_wrap_witness :
    selectionChangeTags "q" ["em"] c4Tree [1, 0] [1, 0]
      = DomNode.withChildren c4Tree
          [DomNode.elem 0 "q" [] (zeroIdsList (DomNode.childrenOf c4Tree))] :=
  selectionChangeTags_rename_or_wrap.1 "q" ["em"] c4Tree [1, 0] [1, 0] (by decide)

/-- Splitting a path lookup at an append. -/
theorem getNode_append (root : DomNode) (p q : List Nat) :
    getNode root (p ++ q) = (getNode root p).bind (fun n => getNode n q) := by
  induction p generalizing root with
  | nil => simp [getNode]
  | cons i rest ih =>
    cases root with
    | text _ _ => simp [getNode]
    | elem _ _ _ children =>
      simp only [List.cons_append, getNode]
      cases children[i]? with
      | none => rfl
      | some c => exact ih c

/-- Any position whose path extends `p` by one index sits below an element at
`p`: text nodes are leaves, so every proper ancestor is an element. -/
theorem getNode_concat_elem {root : DomNode} {p : List Nat} {i : Nat} {n : DomNode}
    (h : getNode root (p ++ [i]) = some n) :
    ∃ id t a cs, getNode root p = some (DomNode.elem id t a cs) := by
  rw [getNode_append] at h
  cases hp : getNode root p with
  | none => rw [hp] at h; cases h
  | some m =>
    rw [hp] at h
    cases m with
    | text _ _ => simp [getNode] at h
    | elem id t a cs => exact ⟨id, t, a, cs, rfl⟩

/-- `resolveToElement` only ever returns element nodes: a text boundary is
replaced by its parent, which is an element. -/
theorem resolveToElement_isElem {root : DomNode} {p : List Nat} {n : DomNode}
    (h : resolveToElement root p = some n) : n.isElem = true := by
  unfold resolveToElement at h
  cases hg : getNode root p with
  | none => rw [hg] at h; cases h
  | some m =>
    rw [hg] at h
    cases m with
    | elem id t a cs => cases h; rfl
    | text tid s =>
      cases p with
      | nil => simp [parentPath] at h
      | cons x xs =>
        simp only [parentPath] at h
        have hne : x :: xs ≠ ([] : List Nat) := by simp
        have hsplit : (x :: xs).dropLast ++ [(x :: xs).getLast hne] = x :: xs :=
          List.dropLast_append_getLast hne
        rw [← hsplit] at hg
        obtain ⟨id', t', a', cs', hel⟩ := getNode_concat_elem hg
        rw [hel] at h
        cases h
        rfl

/-- **C10.**  When no selection exists (`anchorNode === null`) the start and
end element queries return `null` (first two conjuncts); whenever they return
non-null, and whenever `selectionGetElement` returns a node, the result is an
element node, never a text node (last three conjuncts). -/
theorem selectionElementQueries_return_elements :
    (∀ root : DomNode, selectionGetStartElement root none = none)
    ∧ (∀ root : DomNode, selectionGetEndElement root none = none)
    ∧ (∀ (root : DomNode) (sel : Option SelEnds) (n : DomNode),
        selectionGetStartElement root sel = some n → n.isElem = true)
    ∧ (∀ (root : DomNode) (sel : Option SelEnds) (n : DomNode),
        selectionGetEndElement root sel = some n → n.isElem = true)
    ∧ (∀ (root : DomNode) (p : List Nat) (n : DomNode),
        selectionGetElement root p = some n → n.isElem = true) := by
  refine ⟨fun _ => rfl, fun _ => rfl, ?_, ?_, ?_⟩
  · intro root sel n h
    cases sel with
    | none => cases h
    | some s =>
      rw [show selectionGetStartElement root (some s)
            = (if s.backwards then resolveToElement root s.focusPath
               else resolveToElement root s.anchorPath) from rfl] at h
      by_cases hb : s.backwards
      · rw [if_pos hb] at h; exact resolveToElement_isElem h
      · rw [if_neg hb] at h; exact resolveToElement_isElem h
  · intro root sel n h
    cases sel with
    | none => cases h
    | some s =>
      rw [show selectionGetEndElement root (some s)
            = (if s.backwards then resolveToElement root s.anchorPath
               else resolveToElement root s.focusPath) from rfl] at h
      by_cases hb : s.backwards
      · rw [if_pos hb] at h; exact resolveToElement_isElem h
      · rw [if_neg hb] at h; exact resolveToElement_isElem h
  · intro root p n h
    exact resolveToElement_isElem h

/-- Witness for C10: the start-element query on a selection anchored in a
text node returns the parent element. -/
theorem selectionElementQueries_return_elements_witness :
    DomNode.isElem c10Root = true :=
  selectionElementQueries_return_elements.2.2.1 c10Root (some c10Sel) c10Root (by decide)

/-- A position some block resolves to always holds a non-inline element. -/
theorem closestBlockRev_spec {inl : String → Bool} {root : DomNode} :
    ∀ {rev q : List Nat}, closestBlockRev inl root rev = some q →
      ∃ id t a cs, getNode root q = some (DomNode.elem id t a cs) ∧ inl t = false := by
  intro rev
  induction rev with
  | nil => intro q h; cases h
  | cons i rest ih =>
    intro q h
    rw [closestBlockRev] at h
    split at h
    · rename_i id t a cs heq
      by_cases hin : inl t
      · rw [if_pos hin] at h; exact ih h
      · rw [if_neg hin] at h
        cases h
        exact ⟨id, t, a, cs, heq, by simpa using hin⟩
    · exact ih h

/-- `elementClosestBlock` only resolves to positions of non-inline
elements. -/
theorem elementClosestBlock_spec {inl : String → Bool} {root : DomNode}
    {p q : List Nat} (h : elementClosestBlock inl root p = some q) :
    ∃ id t a cs, getNode root q = some (DomNode.elem id t a cs) ∧ inl t = false :=
  closestBlockRev_spec h

/-- Looking up one child below an element position. -/
theorem getNode_concat_child {root : DomNode} {parent : List Nat} {pid : Nat}
    {pt : String} {pa : List (String × String)} {children : List DomNode}
    (hpar : getNode root parent = some (DomNode.elem pid pt pa children)) (m : Nat) :
    getNode root (parent ++ [m]) = children[m]? := by
  rw [getNode_append, hpar]
  cases h : children[m]? with
  | none => simp [getNode, h]
  | some c => simp [getNode, h]

/-- Document order is reflexive-monotone on sibling positions. -/
theorem pathLexLe_concat {a b : Nat} (hab : a ≤ b) :
    ∀ parent : List Nat, pathLexLe (parent ++ [a]) (parent ++ [b]) = true := by
  intro parent
  induction parent with
  | nil =>
    simp only [List.nil_append, pathLexLe]
    by_cases h1 : a < b
    · rw [if_pos h1]
    · have hab' : a = b := by omega
      subst hab'
      rw [if_neg h1, if_neg h1]
  | cons x xs ih =>
    simp only [List.cons_append, pathLexLe]
    rw [if_neg (lt_irrefl x), if_neg (lt_irrefl x)]
    exact ih

/-- Adding a node that follows every member of a document-ordered set appends
it at the end. -/
theorem docOrderInsert_append {p : List Nat} :
    ∀ {ps : List (List Nat)}, (∀ q ∈ ps, pathLexLe q p = true) →
      docOrderInsert p ps = ps ++ [p] := by
  intro ps
  induction ps with
  | nil => intro _; rfl
  | cons q qs ih =>
    intro hall
    rw [docOrderInsert, if_pos (hall q (by simp)), ih (fun x hx => hall x (by simp [hx]))]
    simp

/-- `nextUntil` over the siblings from index `k` up to the stop index `j`
collects exactly the element siblings with indices in `[k, j)`. -/
theorem nextUntilAux_slice (parent : List Nat) (children : List DomNode) :
    ∀ (d k j : Nat), j = k + d → j < children.length →
      nextUntilAux parent (children.drop k) k (parent ++ [j])
        = ((List.range' k d).filter
            (fun m => (children[m]?).elim false DomNode.isElem)).map
            (fun m => parent ++ [m]) := by
  intro d
  induction d with
  | zero =>
    intro k j hkj hj
    have hk : k < children.length := by omega
    rw [List.drop_eq_getElem_cons hk, nextUntilAux, if_pos (by rw [hkj, Nat.add_zero])]
    simp [List.range']
  | succ d ih =>
    intro k j hkj hj
    have hk : k < children.length := by omega
    have hkj' : k ≠ j := by omega
    rw [List.drop_eq_getElem_cons hk, nextUntilAux,
      if_neg (fun hc => hkj' (by simpa using List.append_cancel_left hc))]
    rw [ih (k + 1) j (by omega) hj]
    rw [List.range'_succ]
    rw [List.filter_cons]
    have hget : children[k]? = some children[k] := List.getElem?_eq_getElem hk
    by_cases he : DomNode.isElem children[k]
    · simp [hget, he]
    · simp [hget, he]

/-- The element-children run over a range-of-indices formulation. -/
theorem filterMapRun_eq_sliceFilter (children : List DomNode) :
    ∀ (n k : Nat), k + n ≤ children.length →
      (List.range' k n).filterMap
          (fun m => (children[m]?).bind
            (fun c => if DomNode.isElem c then some c else none))
        = ((children.drop k).take n).filter DomNode.isElem := by
  intro n
  induction n with
  | zero => intro k _; rfl
  | succ n ih =>
    intro k hk
    have hklt : k < children.length := by omega
    have hget : children[k]? = some children[k] := List.getElem?_eq_getElem hklt
    rw [List.range'_succ, List.filterMap_cons, List.drop_eq_getElem_cons hklt,
      List.take_succ_cons, List.filter_cons, hget, Option.some_bind]
    rw [ih (k + 1) (by omega)]
    by_cases he : DomNode.isElem children[k]
    · rw [if_pos he, if_pos he]
    · rw [if_neg he, if_neg he]

/-- **C6 counterexample.**  On `c6Tree` the start container resolves to a
block (`some [0]`) while the end container resolves to none; contrary to
"only when neither side finds a block does it wrap", the code wraps the limit
element's entire content and invokes the callback once on the new wrapper —
not on the found start block. -/
theorem selectionEachBlock_wraps_on_one_sided_failure :
    elementClosestBlock c6Inl c6Tree [0, 0] = some [0]
      ∧ elementClosestBlock c6Inl c6Tree [1] = none
      ∧ selectionEachBlock c6Inl c6Tree [0, 0] [1] none
          = ((elementWrapInner c6Tree none).1, [(elementWrapInner c6Tree none).2])
      ∧ (elementWrapInner c6Tree none).2
          ≠ DomNode.elem 2 "div" [] [DomNode.text 3 "x".data] := by
  exact ⟨by decide, by decide, by decide, by decide⟩

/-- Filtering by element-hood before resolving equals resolving with an
element guard. -/
theorem filterMap_filter_elim (children : List DomNode) :
    ∀ l : List Nat,
      (l.filter (fun m => (children[m]?).elim false DomNode.isElem)).filterMap
          (fun m => children[m]?)
        = l.filterMap
            (fun m => (children[m]?).bind
              (fun c => if DomNode.isElem c then some c else none)) := by
  intro l
  induction l with
  | nil => rfl
  | cons m l ihl =>
    rw [List.filter_cons, List.filterMap_cons]
    cases hm : children[m]? with
    | none => simp [hm, ihl]
    | some c =>
      by_cases hc : DomNode.isElem c
      · simp [hm, hc, List.filterMap_cons, ihl]
      · simp [hm, hc, ihl]

/-- **C6 (amended).**  Per range, `selectionEachBlock` resolves the closest
block-level ancestors of the start and end containers below the limit; when
**either** side fails to find a block (not only when neither does) it wraps
the limit element's entire content in a new wrapper element and invokes the
callback exactly once on that wrapper (first conjunct); when both sides
resolve to the same block it invokes the callback once on it (second
conjunct); and when they resolve to two sibling positions `i < j` below a
common parent, it invokes the callback once per **element** child of that
parent from index `i` through `j` inclusive, in document order — including
non-block element siblings lying between the two blocks (third conjunct). -/
theorem selectionEachBlock_wrap_or_sibling_run :
    (∀ (inl : String → Bool) (root : DomNode) (sp0 ep0 : List Nat) (bc : Option String),
        elementClosestBlock inl root sp0 = none ∨ elementClosestBlock inl root ep0 = none →
        selectionEachBlock inl root sp0 ep0 bc
          = ((elementWrapInner root bc).1, [(elementWrapInner root bc).2]))
    ∧ (∀ (inl : String → Bool) (root : DomNode) (sp0 ep0 : List Nat) (bc : Option String)
        (p : List Nat) (n : DomNode),
        elementClosestBlock inl root sp0 = some p →
        elementClosestBlock inl root ep0 = some p →
        getNode root p = some n →
        selectionEachBlock inl root sp0 ep0 bc = (root, [n]))
    ∧ (∀ (inl : String → Bool) (root : DomNode) (sp0 ep0 : List Nat) (bc : Option String)
        (parent : List Nat) (i j pid : Nat) (pt : String)
        (pa : List (String × String)) (children : List DomNode),
        elementClosestBlock inl root sp0 = some (parent ++ [i]) →
        elementClosestBlock inl root ep0 = some (parent ++ [j]) →
        i < j →
        getNode root parent = some (DomNode.elem pid pt pa children) →
        selectionEachBlock inl root sp0 ep0 bc = (root, docOrderSiblingRun children i j)) := by
  refine ⟨?_, ?_, ?_⟩
  · intro inl root sp0 ep0 bc h
    rcases h with h | h
    · cases he : elementClosestBlock inl root ep0 <;>
        simp [selectionEachBlock, h, he, elementWrapInner]
    · cases hs : elementClosestBlock inl root sp0 <;>
        simp [selectionEachBlock, h, hs, elementWrapInner]
  · intro inl root sp0 ep0 bc p n hsp hep hn
    simp [selectionEachBlock, hsp, hep, hn]
  · intro inl root sp0 ep0 bc parent i j pid pt pa children hsp hep hij hpar
    obtain ⟨eid, et, ea, ecs, hej, _⟩ := elementClosestBlock_spec hep
    obtain ⟨sid, st, sa, scs, hei, _⟩ := elementClosestBlock_spec hsp
    have hchild := getNode_concat_child hpar
    have hcj : children[j]? = some (DomNode.elem eid et ea ecs) := by
      rw [← hchild j]; exact hej
    have hci : children[i]? = some (DomNode.elem sid st sa scs) := by
      rw [← hchild i]; exact hei
    have hjlt : j < children.length := by
      by_contra hc
      push_neg at hc
      rw [List.getElem?_eq_none hc] at hcj
      cases hcj
    have hilt : i < children.length := by omega
    have hne : parent ++ [i] ≠ parent ++ [j] := by
      intro hc
      have := List.append_cancel_left hc
      simp at this
      omega
    simp only [selectionEachBlock, hsp, hep, if_neg hne, List.dropLast_concat,
      List.getLastD_concat, hpar, Option.map_some', DomNode.childrenOf, Option.getD_some]
    rw [nextUntilAux_slice parent children (j - (i + 1)) (i + 1) j (by omega) hjlt]
    rw [docOrderInsert_append ?side]
    case side =>
      intro q hq
      rcases List.mem_cons.mp hq with rfl | hq
      · exact pathLexLe_concat (Nat.le_of_lt hij) parent
      · obtain ⟨m, hm, rfl⟩ := List.mem_map.mp hq
        have := (List.mem_range'_1.mp (List.mem_filter.mp hm).1).2
        exact pathLexLe_concat (by omega) parent
    rw [List.cons_append, List.filterMap_cons, List.filterMap_append, List.filterMap_map]
    have hcompose : (getNode root ∘ fun m => parent ++ [m]) = fun m => children[m]? := by
      funext m
      exact hchild m
    rw [hcompose, filterMap_filter_elim children,
      filterMapRun_eq_sliceFilter children (j - (i + 1)) (i + 1) (by omega)]
    simp only [hchild, hci, hcj, List.filterMap_cons, List.filterMap_nil]
    -- right-hand side
    rw [docOrderSiblingRun, List.drop_take, List.drop_eq_getElem_cons hilt]
    have hd2 : j + 1 - i = (j - (i + 1)) + 1 + 1 := by omega
    rw [hd2, List.take_succ_cons, List.take_succ]
    have hdrop : (children.drop (i + 1))[j - (i + 1)]? = some (DomNode.elem eid et ea ecs) := by
      rw [List.getElem?_drop]
      rw [show i + 1 + (j - (i + 1)) = j by omega]
      exact hcj
    rw [hdrop]
    have hgi : children[i] = DomNode.elem sid st sa scs := by
      rw [List.getElem?_eq_getElem hilt] at hci
      exact Option.some.inj hci
    rw [hgi]
    rw [List.filter_cons_of_pos (by rfl), List.filter_append]
    simp [List.filterMap_cons, DomNode.isElem]

/-- Witness for C6 (amended): on `c6Tree2` the two sides resolve to the two
`div` blocks at indices 0 and 3 under the limit, and the callback run is the
element children 0-3 in document order — the inline `span` between the blocks
included, the text node skipped. -/
theorem selectionEachBlock_wrap_or_sibling_run_witness :
    selectionEachBlock c6Inl c6Tree2 [0, 0] [3, 0] none
      = (c6Tree2, docOrderSiblingRun (DomNode.childrenOf c6Tree2) 0 3) :=
  selectionEachBlock_wrap_or_sibling_run.2.2 c6Inl c6Tree2 [0, 0] [3, 0] none
    [] 0 3 1 "lim" [] (DomNode.childrenOf c6Tree2)
    (by decide) (by decide) (by decide) (by decide)

/-- Lookup at the junction of an append. -/
theorem getElem?_append_cons {α : Type} (l1 l2 : List α) (x : α) :
    (l1 ++ x :: l2)[l1.length]? = some x := by
  rw [List.getElem?_append_right (Nat.le_refl _)]
  simp

/-- Dropping just past the junction of an append. -/
theorem drop_append_cons_succ {α : Type} (l1 l2 : List α) (x : α) :
    (l1 ++ x :: l2).drop (l1.length + 1) = l2 := by
  rw [show l1 ++ x :: l2 = (l1 ++ [x]) ++ l2 by simp,
    show l1.length + 1 = (l1 ++ [x]).length by simp, List.drop_left]

/-- Taking the first of three appended chunks. -/
theorem take_first_of_three {α : Type} (a b c : List α) :
    ((a ++ b) ++ c).take a.length = a := by
  rw [List.append_assoc]
  exact List.take_left a (b ++ c)

/-- Taking the first two of three appended chunks. -/
theorem take_two_of_three {α : Type} (a b c : List α) :
    ((a ++ b) ++ c).take (a.length + b.length) = a ++ b := by
  rw [show a.length + b.length = (a ++ b).length by rw [List.length_append]]
  exact List.take_left (a ++ b) c

/-- Dropping the first two of three appended chunks. -/
theorem drop_two_of_three {α : Type} (a b c : List α) :
    ((a ++ b) ++ c).drop (a.length + b.length) = c := by
  rw [show a.length + b.length = (a ++ b).length by rw [List.length_append]]
  exact List.drop_left (a ++ b) c

/-- **C5.**  Clearing formatting over a selection `[b]` in the middle of the
text `a ++ b ++ c` of a block child of the limit node trims the block to the
content before the selection, moves the trailing content (the rest of the
text and the following children of the block) to immediately after the block
inside a fresh partial copy of it, preserving its order, and inserts the
flattened selected text — a bare text node with no markup — at the seam
between the trimmed block and the relocated trailing content; in particular
on `<p>A[B]C</p>` the result reads `A`, then plain `B`, then `C` in document
order. -/
theorem selectionClearFormatting_flattens_at_seam :
    ∀ (pre post pcs scs : List DomNode) (bid tid : Nat) (btag : String)
      (battrs : List (String × String)) (a b c : List Char), b ≠ [] →
      selectionClearFormatting
          (pre ++ DomNode.elem bid btag battrs
              (pcs ++ DomNode.text tid ((a ++ b) ++ c) :: scs) :: post)
          (some ⟨pre.length, pcs.length, a.length, a.length + b.length⟩)
        = pre ++ DomNode.elem bid btag battrs (pcs ++ [DomNode.text tid a])
            :: DomNode.text 0 b
            :: DomNode.elem 0 btag battrs (DomNode.text 0 c :: scs)
            :: post := by
  intro pre post pcs scs bid tid btag battrs a b c hb
  simp only [selectionClearFormatting, getElem?_append_cons]
  rw [take_two_of_three, List.drop_left, take_first_of_three, drop_two_of_three]
  rw [if_neg (by simp [htmlOfList, htmlOf, List.isEmpty_iff, hb])]
  simp only [walkToChildOfLimit, List.head?]
  simp only [textOfList, textOf, List.append_nil, List.take_left, List.drop_left,
    drop_append_cons_succ]
  simp

mutual

/-- Every id in a re-parsed subtree is `0`. -/
theorem idsOf_zeroIds_eq_zero : ∀ (n : DomNode) (x : Nat), x ∈ idsOf (zeroIds n) → x = 0
  | DomNode.text _ s, x, hx => by simpa [zeroIds, idsOf] using hx
  | DomNode.elem _ t a cs, x, hx => by
      simp only [zeroIds, idsOf, List.mem_cons] at hx
      rcases hx with rfl | hx
      · rfl
      · exact idsOfList_zeroIdsList_eq_zero cs x hx

/-- Every id in a re-parsed forest is `0`. -/
theorem idsOfList_zeroIdsList_eq_zero :
    ∀ (cs : List DomNode) (x : Nat), x ∈ idsOfList (zeroIdsList cs) → x = 0
  | [], x, hx => by simp [zeroIdsList, idsOfList] at hx
  | c :: cs, x, hx => by
      simp only [zeroIdsList, idsOfList, List.mem_append] at hx
      rcases hx with hx | hx
      · exact idsOf_zeroIds_eq_zero c x hx
      · exact idsOfList_zeroIdsList_eq_zero cs x hx

end

mutual

/-- Stripping the marker attribute does not change node ids. -/
theorem idsOf_strip : ∀ n : DomNode, idsOf (stripReplacementAttr n) = idsOf n
  | DomNode.text _ _ => rfl
  | DomNode.elem _ t a cs => by
      simp only [stripReplacementAttr, idsOf]
      rw [idsOfList_stripList cs]

/-- Stripping the marker attribute does not change forest ids. -/
theorem idsOfList_stripList :
    ∀ cs : List DomNode, idsOfList (stripReplacementAttrList cs) = idsOfList cs
  | [] => rfl
  | c :: cs => by
      simp only [stripReplacementAttrList, idsOfList]
      rw [idsOf_strip c, idsOfList_stripList cs]

end

mutual

/-- Stripping the marker attribute from a subtree that does not carry it is
the identity. -/
theorem strip_eq_of_not_has : ∀ n : DomNode, hasReplacementAttr n = false →
    stripReplacementAttr n = n
  | DomNode.text _ _, _ => rfl
  | DomNode.elem i t a cs, h => by
      simp only [hasReplacementAttr, Bool.or_eq_false_iff] at h
      simp only [stripReplacementAttr]
      rw [stripList_eq_of_not_has cs h.2]
      rw [List.filter_eq_self.mpr ?attrs]
      case attrs =>
        intro p hp
        have := List.any_eq_false.mp h.1 p hp
        simpa using this

/-- Stripping the marker attribute from a clean forest is the identity. -/
theorem stripList_eq_of_not_has : ∀ cs : List DomNode,
    hasReplacementAttrList cs = false → stripReplacementAttrList cs = cs
  | [], _ => rfl
  | c :: cs, h => by
      simp only [hasReplacementAttrList, Bool.or_eq_false_iff] at h
      simp only [stripReplacementAttrList]
      rw [strip_eq_of_not_has c h.1, stripList_eq_of_not_has cs h.2]

end

/-- Stripping after setting the marker removes exactly the set marker. -/
theorem strip_jqSetAttr (n : DomNode) (v : String) :
    stripReplacementAttr (jqSetAttr n "data-replacement" v) = stripReplacementAttr n := by
  cases n with
  | text i s => rfl
  | elem i t a cs =>
      simp only [jqSetAttr, stripReplacementAttr]
      rw [List.filter_append, List.filter_filter]
      simp

/-- Re-parsing commutes with setting an attribute. -/
theorem zeroIds_jqSetAttr (n : DomNode) (k v : String) :
    zeroIds (jqSetAttr n k v) = jqSetAttr (zeroIds n) k v := by
  cases n <;> rfl

/-- Forest serialisation of ids distributes over append. -/
theorem idsOfList_append (l1 l2 : List DomNode) :
    idsOfList (l1 ++ l2) = idsOfList l1 ++ idsOfList l2 := by
  induction l1 with
  | nil => rfl
  | cons c cs ih => simp only [List.cons_append, idsOfList, List.append_eq, ih, List.append_assoc]

/-- Stripping distributes over append. -/
theorem stripList_append (l1 l2 : List DomNode) :
    stripReplacementAttrList (l1 ++ l2)
      = stripReplacementAttrList l1 ++ stripReplacementAttrList l2 := by
  induction l1 with
  | nil => rfl
  | cons c cs ih => simp only [List.cons_append, stripReplacementAttrList, List.append_eq, ih]

/-- The in-place branch of `selectionReplaceWithinValidTags`: when the three
resolved elements are valid, the replacement happens inside the selected
element, which stays in the tree with its identity. -/
theorem c3_inplace_eq (pre post : List DomNode) (sid tid : Nat) (stag : String)
    (sattrs : List (String × String)) (a b c : List Char) (html : DomNode)
    (validTags : List String) (hv : elementIsValid stag validTags = true) :
    selectionReplaceWithinValidTags html validTags
        (pre ++ DomNode.elem sid stag sattrs [DomNode.text tid ((a ++ b) ++ c)] :: post)
        (some ⟨pre.length, 0, a.length, a.length + b.length⟩)
      = pre ++ DomNode.elem sid stag sattrs
          [DomNode.text tid a, html, DomNode.text 0 c] :: post := by
  simp only [selectionReplaceWithinValidTags, getElem?_append_cons, hv, Bool.and_self,
    if_true]
  simp only [rangeReplaceInText, getElem?_append_cons, List.getElem?_cons_zero]
  rw [take_first_of_three, drop_two_of_three]
  simp [List.take_left, drop_append_cons_succ]

/-- The split branch of `selectionReplaceWithinValidTags`: when the validity
check fails, the selected element is replaced by a fresh partial copy of its
head, the marked-then-stripped re-parsed html, and a fresh partial copy of
its tail. -/
theorem c3_split_eq (pre post : List DomNode) (sid tid : Nat) (stag : String)
    (sattrs : List (String × String)) (a b c : List Char) (html : DomNode)
    (validTags : List String) (hv : elementIsValid stag validTags = false)
    (hpre : hasReplacementAttrList pre = false)
    (hpost : hasReplacementAttrList post = false)
    (hsel : hasReplacementAttr
        (DomNode.elem sid stag sattrs [DomNode.text tid ((a ++ b) ++ c)]) = false) :
    selectionReplaceWithinValidTags html validTags
        (pre ++ DomNode.elem sid stag sattrs [DomNode.text tid ((a ++ b) ++ c)] :: post)
        (some ⟨pre.length, 0, a.length, a.length + b.length⟩)
      = pre ++ DomNode.elem 0 stag sattrs [DomNode.text 0 a]
          :: stripReplacementAttr (zeroIds html)
          :: DomNode.elem 0 stag sattrs [DomNode.text 0 c] :: post := by
  have hattrs : sattrs.filter (fun p => decide (p.1 ≠ "data-replacement")) = sattrs := by
    simp only [hasReplacementAttr, Bool.or_eq_false_iff] at hsel
    refine List.filter_eq_self.mpr ?_
    intro p hp
    have := List.any_eq_false.mp hsel.1 p hp
    simpa using this
  simp only [selectionReplaceWithinValidTags, getElem?_append_cons, hv, Bool.false_and,
    Bool.false_eq_true, if_false]
  simp only [selectionReplaceSplittingSelectedElement, getElem?_append_cons,
    List.getElem?_cons_zero]
  rw [take_first_of_three, drop_two_of_three]
  simp only [List.take_zero, zeroIdsList, List.nil_append, List.drop_succ_cons,
    List.drop_zero, List.take_left, drop_append_cons_succ]
  rw [stripList_append, stripList_append, stripList_eq_of_not_has pre hpre,
    stripList_eq_of_not_has post hpost]
  simp only [stripReplacementAttrList]
  rw [zeroIds_jqSetAttr, strip_jqSetAttr]
  simp only [stripReplacementAttr, stripReplacementAttrList, hattrs]
  simp

/-- **C3.**  For a selection lying inside a text child of the selected
element: when the common-ancestor element, start element and end element are
all in `validTagNames` (for this range shape all three resolve to the
selected element), `selectionReplaceWithinValidTags` performs a direct
in-place replacement, the selected element keeping its place and identity
(first conjunct); otherwise it splits — the selected element is replaced by
the before-fragment, the re-parsed html middle with the transient
`data-replacement` marker stripped, and the after-fragment (second
conjunct); consequently in the split case the original selected element's
identity is gone from the document entirely, so no element whose tag is
absent from `validTagNames` both directly contains the inserted html at top
level and was the original selected element (third conjunct; in the in-place
case the direct container is the selected element, whose tag is valid by the
branch condition). -/
theorem selectionReplaceWithinValidTags_split_safety :
    ∀ (pre post : List DomNode) (sid tid : Nat) (stag : String)
      (sattrs : List (String × String)) (a b c : List Char) (html : DomNode)
      (validTags : List String),
      (elementIsValid stag validTags = true →
        selectionReplaceWithinValidTags html validTags
            (pre ++ DomNode.elem sid stag sattrs [DomNode.text tid ((a ++ b) ++ c)] :: post)
            (some ⟨pre.length, 0, a.length, a.length + b.length⟩)
          = pre ++ DomNode.elem sid stag sattrs
              [DomNode.text tid a, html, DomNode.text 0 c] :: post)
      ∧ (elementIsValid stag validTags = false →
          hasReplacementAttrList pre = false →
          hasReplacementAttrList post = false →
          hasReplacementAttr
              (DomNode.elem sid stag sattrs [DomNode.text tid ((a ++ b) ++ c)]) = false →
          selectionReplaceWithinValidTags html validTags
              (pre ++ DomNode.elem sid stag sattrs [DomNode.text tid ((a ++ b) ++ c)] :: post)
              (some ⟨pre.length, 0, a.length, a.length + b.length⟩)
            = pre ++ DomNode.elem 0 stag sattrs [DomNode.text 0 a]
                :: stripReplacementAttr (zeroIds html)
                :: DomNode.elem 0 stag sattrs [DomNode.text 0 c] :: post)
      ∧ (elementIsValid stag validTags = false →
          hasReplacementAttrList pre = false →
          hasReplacementAttrList post = false →
          hasReplacementAttr
              (DomNode.elem sid stag sattrs [DomNode.text tid ((a ++ b) ++ c)]) = false →
          sid ≠ 0 → sid ∉ idsOfList pre → sid ∉ idsOfList post →
          sid ∉ idsOfList (selectionReplaceWithinValidTags html validTags
              (pre ++ DomNode.elem sid stag sattrs [DomNode.text tid ((a ++ b) ++ c)] :: post)
              (some ⟨pre.length, 0, a.length, a.length + b.length⟩))) := by
  intro pre post sid tid stag sattrs a b c html validTags
  refine ⟨c3_inplace_eq pre post sid tid stag sattrs a b c html validTags,
    c3_split_eq pre post sid tid stag sattrs a b c html validTags, ?_⟩
  intro hv h1 h2 h3 hsid hpre hpost hmem
  rw [c3_split_eq pre post sid tid stag sattrs a b c html validTags hv h1 h2 h3] at hmem
  rw [idsOfList_append] at hmem
  simp only [idsOfList, idsOf, idsOf_strip, List.mem_append, List.mem_cons,
    List.not_mem_nil, or_false, List.mem_singleton] at hmem
  rcases hmem with h | (h | h) | h | (h | h) | h
  · exact hpre h
  · exact hsid h
  · exact hsid h
  · exact hsid (idsOf_zeroIds_eq_zero html sid h)
  · exact hsid h
  · exact hsid h
  · exact hpost h

/-- Witness for C3: the split branch on a concrete document with an invalid
selected tag. -/
theorem selectionReplaceWithinValidTags_split_safety_witness :
    selectionReplaceWithinValidTags (DomNode.elem 9 "ul" [] []) ["div"]
        ([] ++ DomNode.elem 5 "p" []
            [DomNode.text 6 (("A".data ++ "B".data) ++ "C".data)] :: [])
        (some ⟨List.length ([] : List DomNode), 0, "A".data.length,
          "A".data.length + "B".data.length⟩)
      = [] ++ DomNode.elem 0 "p" [] [DomNode.text 0 "A".data]
          :: stripReplacementAttr (zeroIds (DomNode.elem 9 "ul" [] []))
          :: DomNode.elem 0 "p" [] [DomNode.text 0 "C".data] :: [] :=
  (selectionReplaceWithinValidTags_split_safety [] [] 5 6 "p" [] "A".data "B".data
      "C".data (DomNode.elem 9 "ul" [] []) ["div"]).2.1
    (by decide) (by decide) (by decide) (by decide)

/-- Witness for C5: clearing formatting on `<p>A[B]C</p>` under the limit
yields `A`, then the bare text `B`, then `C` in document order. -/
theorem selectionClearFormatting_flattens_at_seam_witness :
    selectionClearFormatting
        ([] ++ DomNode.elem 5 "p" []
            ([] ++ DomNode.text 6 (("A".data ++ "B".data) ++ "C".data) :: []) :: [])
        (some ⟨List.length ([] : List DomNode), List.length ([] : List DomNode),
          "A".data.length, "A".data.length + "B".data.length⟩)
      = [] ++ DomNode.elem 5 "p" [] ([] ++ [DomNode.text 6 "A".data])
          :: DomNode.text 0 "B".data
          :: DomNode.elem 0 "p" [] (DomNode.text 0 "C".data :: [])
          :: [] :=
  selectionClearFormatting_flattens_at_seam [] [] [] [] 5 6 "p" []
    "A".data "B".data "C".data (by decide)
